import Mathlib

/-!
Verification of the core logic of `gh-dir-diff`: the glob-to-regex path
matcher and the unified-diff assembler of `src/app.js`, the HMAC state
token signer/verifier of `src/gh-dir-diff-oauth/src/index.ts`, and the
shareable-URL (de)serialization of `src/app.js`.

JS strings are embedded as `String`/`List Char`; absent JS values
(`undefined`) as `Option`; JS `Date.now()` as an explicit `Int` parameter.
-/

namespace GhDirDiff

/-! ## Glob matcher (`matchGlob`, src/app.js lines 61-107)

`matchGlob` builds a JS regex string from the pattern and tests the path
against `^pattern$`.  The regex built consists only of the pieces
`[^/]*` (from `*`), `[^/]` (from `?`), `.*` (from a final `**` segment),
`(?:.*/)?` (from a non-final `**` segment), a literal `/` between
segments, and escaped literal characters (every other character is passed
through `escapeRegex`, which neutralizes all JS regex metacharacters, so
it matches only itself).  We embed that regex as a list of `Atom`s and
give the atoms their regular-expression semantics directly: an anchored
match is an exact decomposition of the whole path among the atoms. -/

/-- One piece of the regex that `matchGlob` builds. -/
inductive Atom where
  /-- an escaped character: matches exactly itself -/
  | lit (c : Char)
  /-- `[^/]` from `?`: one character other than `/` -/
  | oneNoSlash
  /-- `[^/]*` from `*`: zero or more characters other than `/` -/
  | starNoSlash
  /-- `.*` from a final `**` segment -/
  | anySuffix
  /-- `(?:.*/)?` from a non-final `**` segment -/
  | dirs
deriving DecidableEq, Repr

/-- Per-character translation of a non-`**` pattern segment
(src/app.js lines 84-95): `*` and `?` become wildcards, everything else
is escaped and matches literally. -/
def segAtoms (seg : List Char) : List Atom :=
  seg.map fun c =>
    if c = '*' then Atom.starNoSlash
    else if c = '?' then Atom.oneNoSlash
    else Atom.lit c

/-- Translation of the segment list (src/app.js lines 71-103).  A final
`**` becomes `.*`; a non-final `**` becomes `(?:.*/)?` with no extra
separator; any other segment is translated per-character and, when not
last, followed by a literal `/`. -/
def compileSegs : List (List Char) → List Atom
  | [] => []
  | [seg] => if seg = ['*', '*'] then [Atom.anySuffix] else segAtoms seg
  | seg :: rest =>
      (if seg = ['*', '*'] then [Atom.dirs] else segAtoms seg ++ [Atom.lit '/'])
        ++ compileSegs rest

/-- JS `String.prototype.split` with a one-character separator:
`"".split(c) = [""]`, separators at the ends produce empty chunks. -/
def splitOnChar (sep : Char) : List Char → List (List Char)
  | [] => [[]]
  | c :: cs =>
      match splitOnChar sep cs with
      | [] => [[]]
      | h :: t => if c = sep then [] :: h :: t else (c :: h) :: t

/-- The suffixes of `s` reachable by letting `[^/]*` consume zero or more
leading non-`/` characters (a negated character class does match line
terminators, so only `/` blocks it). -/
def starSuffixes : List Char → List (List Char)
  | [] => [[]]
  | d :: ds => (d :: ds) :: (if d = '/' then [] else starSuffixes ds)

/-- The ECMAScript line terminators, which the regex `.` does not match
when the `RegExp` is built without the `s` (dotAll) flag, as at
src/app.js line 105: LF, CR, U+2028 and U+2029. -/
def isLineTerminator (c : Char) : Bool :=
  c = '\n' || c = '\r' || c.toNat = 0x2028 || c.toNat = 0x2029

/-- The suffixes of `s` reachable by letting `.*` consume zero or more
leading characters: any character except a line terminator. -/
def dotStarSuffixes : List Char → List (List Char)
  | [] => [[]]
  | d :: ds => (d :: ds) :: (if isLineTerminator d then [] else dotStarSuffixes ds)

/-- The remainders `(?:.*/)` can leave behind: the suffixes of `s` that
begin immediately after a `/` whose preceding characters are all
consumable by `.`, i.e. contain no line terminator. -/
def afterSlashes : List Char → List (List Char)
  | [] => []
  | d :: ds =>
      (if d = '/' then [ds] else [])
        ++ (if isLineTerminator d then [] else afterSlashes ds)

/-- Anchored regular-expression semantics of an atom list: `matchesA
atoms s` holds iff `s` decomposes exactly among the atoms.  This is the
meaning of `new RegExp('^' + regexPattern + '$').test(path)` for the
regex pieces `matchGlob` emits; the `RegExp` carries no flags, so the
`.` of the `**` translations rejects line terminators while the negated
classes `[^/]`/`[^/]*` accept them. -/
def matchesA : List Atom → List Char → Bool
  | [], s => s.isEmpty
  | Atom.lit c :: rest, s =>
      match s with
      | [] => false
      | d :: ds => c = d && matchesA rest ds
  | Atom.oneNoSlash :: rest, s =>
      match s with
      | [] => false
      | d :: ds => !(d = '/' : Bool) && matchesA rest ds
  | Atom.starNoSlash :: rest, s => (starSuffixes s).any fun t => matchesA rest t
  | Atom.anySuffix :: rest, s =>
      (dotStarSuffixes s).any fun t => matchesA rest t
  | Atom.dirs :: rest, s =>
      matchesA rest s || (afterSlashes s).any fun t => matchesA rest t

/-- `matchGlob(pattern, path)` (src/app.js lines 61-107): an empty
pattern matches everything (`if (!pattern) return true`); otherwise the
pattern is split on `/`, compiled, and the path tested against the
anchored regex. -/
def matchGlob (pattern path : String) : Bool :=
  if pattern = "" then true
  else matchesA (compileSegs (splitOnChar '/' pattern.data)) path.data

example : matchGlob "**/*.go" "a/b/c.go" = true := by decide
example : matchGlob "*.go" "a/b/c.go" = false := by decide
example : matchGlob "a/**/z" "a/z" = true := by decide
example : matchGlob "a.b" "axb" = false := by decide
example : matchGlob "a.b" "a.b" = true := by decide
example : matchGlob "" "whatever" = true := by decide
example : matchGlob "a/**/z" "a/b/c/z" = true := by decide
example : matchGlob "a/**/z" "az" = false := by decide
example : matchGlob "**" "a/b" = true := by decide
example : matchGlob "a?c" "abc" = true := by decide
example : matchGlob "a?c" "a/c" = false := by decide
example : matchGlob "*" "a\nb" = true := by decide
example : matchGlob "?" "\n" = true := by decide
example : matchGlob "**" "a\nb" = false := by decide

/-! ### Semantic lemmas about the glob atoms -/

/-- The suffixes produced by `afterSlashes` are exactly the remainders of
`s` after a `/` preceded only by non-line-terminator characters. -/
theorem mem_afterSlashes {t s : List Char} :
    t ∈ afterSlashes s ↔
      ∃ pre, s = pre ++ '/' :: t ∧ ∀ c ∈ pre, isLineTerminator c = false := by
  induction s with
  | nil =>
    constructor
    · intro h; simp [afterSlashes] at h
    · rintro ⟨pre, h, _⟩; exact absurd h (by simp)
  | cons d ds ih =>
    simp only [afterSlashes, List.mem_append]
    constructor
    · rintro (h | h)
      · by_cases hd : d = '/'
        · subst hd
          rw [if_pos rfl] at h
          simp only [List.mem_singleton] at h
          exact ⟨[], by simp [h], by simp⟩
        · simp [hd] at h
      · by_cases hlt : isLineTerminator d = true
        · rw [if_pos hlt] at h
          simp at h
        · rw [if_neg hlt] at h
          obtain ⟨pre, rfl, hpre⟩ := ih.mp h
          refine ⟨d :: pre, rfl, ?_⟩
          intro c hc
          rcases List.mem_cons.mp hc with rfl | hc
          · cases h' : isLineTerminator c with
            | false => rfl
            | true => exact absurd h' hlt
          · exact hpre c hc
    · rintro ⟨pre, hpre, hterm⟩
      cases pre with
      | nil =>
        simp only [List.nil_append, List.cons.injEq] at hpre
        left; simp [hpre.1, hpre.2]
      | cons a pre' =>
        simp only [List.cons_append, List.cons.injEq] at hpre
        right
        have hda : isLineTerminator d = false :=
          hpre.1 ▸ hterm a (List.mem_cons_self a pre')
        rw [if_neg (by simp [hda])]
        exact ih.mpr
          ⟨pre', hpre.2, fun c hc => hterm c (List.mem_cons_of_mem a hc)⟩

/-- `[^/]*` alone matches exactly the slash-free strings: `*` never
crosses the `/` separator. -/
theorem matchesA_star (s : List Char) :
    matchesA [Atom.starNoSlash] s = true ↔ '/' ∉ s := by
  induction s with
  | nil => simp [matchesA, starSuffixes]
  | cons d ds ih =>
    by_cases hd : d = '/'
    · subst hd
      simp [matchesA, starSuffixes]
    · have h1 : matchesA [Atom.starNoSlash] (d :: ds)
          = (starSuffixes ds).any fun t => matchesA [] t := by
        simp [matchesA, starSuffixes, hd]
      have h2 : matchesA [Atom.starNoSlash] ds
          = (starSuffixes ds).any fun t => matchesA [] t := by
        simp [matchesA]
      rw [h1, ← h2, ih]
      simp [Ne.symm hd]

/-- `[^/]` alone matches exactly the one-character slash-free strings:
`?` matches a single character and never the separator. -/
theorem matchesA_one (s : List Char) :
    matchesA [Atom.oneNoSlash] s = true ↔ ∃ c, s = [c] ∧ c ≠ '/' := by
  match s with
  | [] => simp [matchesA]
  | [c] => simp [matchesA]
  | c :: d :: ds => simp [matchesA]

/-- A final `**` compiles to `.*`, which (with no dotAll flag) matches
exactly the suffixes free of line terminators. -/
theorem matchesA_anySuffix (s : List Char) :
    matchesA [Atom.anySuffix] s = true ↔
      ∀ c ∈ s, isLineTerminator c = false := by
  induction s with
  | nil => simp [matchesA, dotStarSuffixes]
  | cons d ds ih =>
    by_cases hd : isLineTerminator d = true
    · have h1 : matchesA [Atom.anySuffix] (d :: ds) = false := by
        simp [matchesA, dotStarSuffixes, hd]
      rw [h1]
      constructor
      · intro h; exact absurd h (by simp)
      · intro h; exact absurd (h d (List.mem_cons_self d ds)) (by simp [hd])
    · have h1 : matchesA [Atom.anySuffix] (d :: ds)
          = (dotStarSuffixes ds).any fun t => matchesA [] t := by
        simp [matchesA, dotStarSuffixes, hd]
      have h2 : matchesA [Atom.anySuffix] ds
          = (dotStarSuffixes ds).any fun t => matchesA [] t := by
        simp [matchesA]
      rw [h1, ← h2, ih]
      constructor
      · intro h c hc
        rcases List.mem_cons.mp hc with rfl | hc
        · cases h' : isLineTerminator c with
          | false => rfl
          | true => exact absurd h' hd
        · exact h c hc
      · intro h c hc
        exact h c (List.mem_cons_of_mem d hc)

/-- A non-final `**` compiles to `(?:.*/)?`: it matches zero whole path
segments (the rest of the regex takes over immediately) or consumes a
line-terminator-free prefix ending at a `/`, i.e. one or more whole
segments whose characters `.` can match. -/
theorem matchesA_dirs (rest : List Atom) (s : List Char) :
    matchesA (Atom.dirs :: rest) s = true ↔
      matchesA rest s = true
        ∨ ∃ pre post, s = pre ++ '/' :: post
            ∧ (∀ c ∈ pre, isLineTerminator c = false)
            ∧ matchesA rest post = true := by
  simp only [matchesA, Bool.or_eq_true, List.any_eq_true]
  constructor
  · rintro (h | ⟨t, ht, hm⟩)
    · exact Or.inl h
    · obtain ⟨pre, rfl, hpre⟩ := mem_afterSlashes.mp ht
      exact Or.inr ⟨pre, t, rfl, hpre, hm⟩
  · rintro (h | ⟨pre, post, rfl, hpre, hm⟩)
    · exact Or.inl h
    · exact Or.inr ⟨post, mem_afterSlashes.mpr ⟨pre, rfl, hpre⟩, hm⟩

/-- Splitting a string that does not contain the separator leaves it in
one piece. -/
theorem splitOnChar_of_not_mem {sep : Char} {cs : List Char}
    (h : sep ∉ cs) : splitOnChar sep cs = [cs] := by
  induction cs with
  | nil => rfl
  | cons c cs ih =>
    have hc : c ≠ sep := fun hc => h (hc ▸ List.mem_cons_self c cs)
    have hcs : sep ∉ cs := fun hm => h (List.mem_cons_of_mem c hm)
    simp [splitOnChar, ih hcs, hc]

/-- A segment consisting only of characters other than `*` and `?`
compiles to a sequence of escaped literals, which matches exactly the
segment text itself. -/
theorem matchesA_segAtoms_lits {cs : List Char}
    (h : ∀ c ∈ cs, c ≠ '*' ∧ c ≠ '?') (s : List Char) :
    matchesA (segAtoms cs) s = true ↔ s = cs := by
  induction cs generalizing s with
  | nil =>
    simp [segAtoms, matchesA, List.isEmpty_iff]
  | cons c cs ih =>
    have hc := h c (List.mem_cons_self c cs)
    have hcs : ∀ x ∈ cs, x ≠ '*' ∧ x ≠ '?' :=
      fun x hx => h x (List.mem_cons_of_mem c hx)
    have hseg : segAtoms (c :: cs) = Atom.lit c :: segAtoms cs := by
      simp [segAtoms, hc.1, hc.2]
    rw [hseg]
    match s with
    | [] => simp [matchesA]
    | d :: ds =>
      simp only [matchesA, Bool.and_eq_true, decide_eq_true_eq,
        List.cons.injEq, ih hcs ds]
      constructor
      · rintro ⟨rfl, rfl⟩; exact ⟨rfl, rfl⟩
      · rintro ⟨rfl, rfl⟩; exact ⟨rfl, rfl⟩

/-- C4 counterexample: the `RegExp` is built with no flags (src/app.js
line 105), so the `.` of the `**` translations does not match line
terminators: a final `**` rejects any suffix containing a newline and a
non-final `**` cannot absorb a segment containing one — `matchGlob "**"
"a\nb"` and `matchGlob "a/**/z" "a/b\nc/z"` are false where the claim's
"matches any suffix" / "zero or more whole path segments" require
true. -/
theorem glob_doublestar_newline_counterexample :
    matchGlob "**" "a\nb" = false
      ∧ matchGlob "a/**/z" "a/b\nc/z" = false := by
  decide

/-- C4 amended: `matchGlob` performs a full-string anchored match in
which `*` and `?` never cross the `/` separator (they compile to `[^/]*`
and `[^/]`, which match only slash-free text), a non-final `**` segment
matches zero or more whole path segments whose characters are free of
line terminators (it compiles to `(?:.*/)?`, consuming either nothing or
a `.`-matchable prefix ending at a `/`), and a final `**` matches any
line-terminator-free suffix (it compiles to `.*`, and the `RegExp` has
no dotAll flag); in particular `match("**/*.go", "a/b/c.go") == true`,
`match("*.go", "a/b/c.go") == false`, and `match("a/**/z", "a/z") ==
true`.  Anchoredness is also witnessed on concrete substring
non-matches. -/
theorem glob_wildcard_semantics :
    (∀ s : List Char, matchesA [Atom.starNoSlash] s = true ↔ '/' ∉ s)
    ∧ (∀ s : List Char,
        matchesA [Atom.oneNoSlash] s = true ↔ ∃ c, s = [c] ∧ c ≠ '/')
    ∧ (∀ s : List Char,
        matchesA [Atom.anySuffix] s = true ↔
          ∀ c ∈ s, isLineTerminator c = false)
    ∧ (∀ (rest : List Atom) (s : List Char),
        matchesA (Atom.dirs :: rest) s = true ↔
          matchesA rest s = true
            ∨ ∃ pre post, s = pre ++ '/' :: post
                ∧ (∀ c ∈ pre, isLineTerminator c = false)
                ∧ matchesA rest post = true)
    ∧ matchGlob "**/*.go" "a/b/c.go" = true
    ∧ matchGlob "*.go" "a/b/c.go" = false
    ∧ matchGlob "a/**/z" "a/z" = true
    ∧ matchGlob "b" "ab" = false
    ∧ matchGlob "a" "ab" = false :=
  ⟨matchesA_star, matchesA_one, matchesA_anySuffix, matchesA_dirs,
    by decide, by decide, by decide, by decide, by decide⟩

/-- Witness for `glob_wildcard_semantics`: instantiating the `*`
semantics at the concrete slash-free string `ab`. -/
theorem glob_wildcard_semantics_witness :
    matchesA [Atom.starNoSlash] ['a', 'b'] = true :=
  (glob_wildcard_semantics.1 ['a', 'b']).mpr (by decide)

/-- C5: every character of a pattern segment other than the wildcards
`*` and `?` is matched only as literal text (regex metacharacters are
escaped, never interpreted): a single-segment pattern free of wildcards
matches exactly itself and no other path, and in particular
`match("a.b", "axb") == false` while `match("a.b", "a.b") == true`. -/
theorem glob_literal_metachars :
    (∀ (pattern path : String), pattern ≠ "" →
      (∀ c ∈ pattern.data, c ≠ '/' ∧ c ≠ '*' ∧ c ≠ '?') →
      (matchGlob pattern path = true ↔ path = pattern))
    ∧ matchGlob "a.b" "axb" = false
    ∧ matchGlob "a.b" "a.b" = true := by
  refine ⟨?_, by decide, by decide⟩
  intro pattern path hne hchars
  have hslash : '/' ∉ pattern.data :=
    fun hm => ((hchars _ hm).1 rfl).elim
  have hstar : pattern.data ≠ ['*', '*'] := by
    intro hd
    exact ((hchars '*' (hd ▸ List.mem_cons_self _ _)).2.1 rfl).elim
  rw [matchGlob, if_neg hne, splitOnChar_of_not_mem hslash]
  rw [show compileSegs [pattern.data] = segAtoms pattern.data by
    simp [compileSegs, hstar]]
  rw [matchesA_segAtoms_lits (fun c hc => (hchars c hc).2) path.data]
  exact ⟨fun h => String.ext h, fun h => h ▸ rfl⟩

/-- Witness for `glob_literal_metachars`: the literal-pattern
characterization applied at pattern `a.b` and path `a.b`. -/
theorem glob_literal_metachars_witness : matchGlob "a.b" "a.b" = true :=
  (glob_literal_metachars.1 "a.b" "a.b" (by decide) (by decide)).mpr rfl

/-! ## Unified diff assembler (`loadDiff`, src/app.js lines 169-231)

The pure core of `loadDiff`: filter the compare-API file list by the
path glob, build the unified diff text, and sum the per-file counts.
Absent JS fields (`undefined`) are `none`; JS `x || d` falls back on the
default both for `undefined` and for the falsy empty string, which
`strOr` reproduces, and `if (x)` truthiness on an optional string is
`strTruthy`. -/

/-- One entry of `compareData.files` as used by `loadDiff`. -/
structure FileChangeRecord where
  filename : String
  previous_filename : Option String
  status : String
  patch : Option String
  additions : Option Nat
  deletions : Option Nat
  mode : Option String
  previous_mode : Option String
deriving DecidableEq, Repr

/-- JS `opt || d` on an optional string: the default replaces both a
missing and an empty (falsy) value. -/
def strOr (opt : Option String) (d : String) : String :=
  match opt with
  | none => d
  | some s => if s = "" then d else s

/-- JS `if (opt)` truthiness on an optional string: false for a missing
value and for the empty string. -/
def strTruthy (opt : Option String) : Bool :=
  match opt with
  | none => false
  | some s => !(s = "" : Bool)

/-- `file.previous_filename || file.filename` (src/app.js line 190). -/
def oldFilename (file : FileChangeRecord) : String :=
  strOr file.previous_filename file.filename

/-- The diff section one file contributes to the unified diff
(src/app.js lines 184-224).  A file with no `patch` whose status is
neither `removed` nor `added` is skipped entirely (`continue`,
line 185) and contributes nothing. -/
def fileSection (file : FileChangeRecord) : String :=
  if file.patch = none ∧ file.status ≠ "removed" ∧ file.status ≠ "added" then ""
  else
    let oldF := oldFilename file
    let newF := file.filename
    let header :=
      if file.status = "removed" then
        "diff --git a/" ++ oldF ++ " b/" ++ oldF ++ "\n" ++
        "deleted file mode " ++ strOr file.previous_mode "100644" ++ "\n" ++
        "--- a/" ++ oldF ++ "\n" ++ "+++ /dev/null\n"
      else if file.status = "added" then
        "diff --git a/" ++ newF ++ " b/" ++ newF ++ "\n" ++
        "new file mode " ++ strOr file.mode "100644" ++ "\n" ++
        "--- /dev/null\n" ++ "+++ b/" ++ newF ++ "\n"
      else if file.status = "renamed" then
        "diff --git a/" ++ oldF ++ " b/" ++ newF ++ "\n" ++
        "rename from " ++ oldF ++ "\n" ++ "rename to " ++ newF ++ "\n" ++
        (if strTruthy file.patch then
          "--- a/" ++ oldF ++ "\n" ++ "+++ b/" ++ newF ++ "\n"
        else "")
      else
        "diff --git a/" ++ newF ++ " b/" ++ newF ++ "\n" ++
        "--- a/" ++ newF ++ "\n" ++ "+++ b/" ++ newF ++ "\n"
    header ++
      (if strTruthy file.patch then file.patch.getD "" ++ "\n" else "")

/-- The filter step (src/app.js lines 170-173): with an empty filter the
list is untouched, otherwise only files whose `filename` matches the
glob survive. -/
def filterFiles (files : List FileChangeRecord) (pathFilter : String) :
    List FileChangeRecord :=
  if pathFilter = "" then files
  else files.filter fun f => matchGlob pathFilter f.filename

/-- The assembler's output: diff text, file count and summed counts
(src/app.js lines 175-179, 182-224, 230-231). -/
structure DiffResult where
  diffText : String
  fileCount : Nat
  totalAdditions : Nat
  totalDeletions : Nat
deriving DecidableEq, Repr

/-- The pure core of `loadDiff`: filter, early-return the designated
"no matches" result on an empty filtered set (lines 175-179), otherwise
concatenate the per-file sections in order and sum `additions` and
`deletions` over the whole filtered set (`f.additions || 0`,
lines 230-231). -/
def assemble (files : List FileChangeRecord) (pathFilter : String) :
    DiffResult :=
  let files := filterFiles files pathFilter
  if files.length = 0 then ⟨"", 0, 0, 0⟩
  else
    { diffText := files.foldl (fun acc f => acc ++ fileSection f) ""
      fileCount := files.length
      totalAdditions := files.foldl (fun s f => s + f.additions.getD 0) 0
      totalDeletions := files.foldl (fun s f => s + f.deletions.getD 0) 0 }

/-- String append is associative. -/
theorem string_append_assoc (a b c : String) : a ++ b ++ c = a ++ (b ++ c) := by
  apply String.ext
  simp [List.append_assoc]

/-- Appending the empty string on the right is the identity. -/
theorem string_append_empty (a : String) : a ++ "" = a := by
  apply String.ext
  simp

/-- C1 counterexample: a `renamed` file with no patch is skipped by the
assembler's no-patch rule (src/app.js line 185), so the assembler emits
no diff section at all for it — in particular no `a/`-`b/` header and no
rename-from/rename-to lines, contrary to the claim. -/
theorem renamed_no_patch_counterexample :
    assemble
        [⟨"new.txt", some "old.txt", "renamed", none, some 0, some 0,
          none, none⟩] "" =
      ⟨"", 1, 0, 0⟩ := by
  decide

/-- C1 amended: a `renamed` file with no patch is skipped entirely (the
skip rule at src/app.js line 185 drops any file that has no `patch` and
whose status is neither `added` nor `removed`), so its section is empty;
when a non-empty patch is present, the section is the `a/`-old `b/`-new
header, the rename-from/rename-to lines, then the `---`/`+++` lines,
then the patch body. -/
theorem renamed_section_requires_patch (f : FileChangeRecord)
    (hs : f.status = "renamed") :
    (f.patch = none → fileSection f = "")
    ∧ (∀ p, f.patch = some p → p ≠ "" →
        fileSection f =
          "diff --git a/" ++ oldFilename f ++ " b/" ++ f.filename ++ "\n" ++
          "rename from " ++ oldFilename f ++ "\n" ++
          "rename to " ++ f.filename ++ "\n" ++
          "--- a/" ++ oldFilename f ++ "\n" ++ "+++ b/" ++ f.filename ++ "\n" ++
          p ++ "\n") := by
  constructor
  · intro hp
    simp [fileSection, hs, hp]
  · intro p hp hpne
    have ht : strTruthy (some p) = true := by simp [strTruthy, hpne]
    simp only [fileSection, hs, hp, ht, Option.getD_some]
    rw [if_neg (by simp)]
    rw [if_neg (by decide : ¬("renamed" : String) = "removed")]
    rw [if_neg (by decide : ¬("renamed" : String) = "added")]
    simp only [eq_self_iff_true, if_true]
    simp only [string_append_assoc]

/-- Witness for `renamed_section_requires_patch` at a concrete renamed
record carrying the patch `@@ -1 +1 @@`. -/
theorem renamed_section_requires_patch_witness :
    fileSection
        ⟨"b.txt", some "a.txt", "renamed", some "@@ -1 +1 @@", some 1,
          some 1, none, none⟩ =
      "diff --git a/a.txt b/b.txt\nrename from a.txt\nrename to b.txt\n--- a/a.txt\n+++ b/b.txt\n@@ -1 +1 @@\n" := by
  have h :=
    (renamed_section_requires_patch
      ⟨"b.txt", some "a.txt", "renamed", some "@@ -1 +1 @@", some 1,
        some 1, none, none⟩ rfl).2 "@@ -1 +1 @@" rfl (by decide)
  rw [h]
  decide

/-- Sums via `foldl` with a starting accumulator. -/
theorem foldl_add_getD {α : Type} (g : α → Nat) (l : List α) (n : Nat) :
    l.foldl (fun s f => s + g f) n = n + (l.map g).sum := by
  induction l generalizing n with
  | nil => simp
  | cons a l ih => simp [ih, Nat.add_assoc]

/-- C6: the assembler's totals are the sums of `additions` and
`deletions` over the whole filtered set — including files whose section
was skipped for lacking a patch — and in particular filtered files with
additions `[3,0,5]` and deletions `[1,2,0]` always total 8 additions and
3 deletions, whatever their other fields (status, patch, modes) are. -/
theorem assemble_totals :
    (∀ (files : List FileChangeRecord) (pat : String),
      (assemble files pat).totalAdditions
          = ((filterFiles files pat).map fun f => f.additions.getD 0).sum
        ∧ (assemble files pat).totalDeletions
          = ((filterFiles files pat).map fun f => f.deletions.getD 0).sum)
    ∧ (∀ f1 f2 f3 : FileChangeRecord,
        f1.additions = some 3 → f2.additions = some 0 → f3.additions = some 5 →
        f1.deletions = some 1 → f2.deletions = some 2 → f3.deletions = some 0 →
        (assemble [f1, f2, f3] "").totalAdditions = 8
          ∧ (assemble [f1, f2, f3] "").totalDeletions = 3) := by
  have main : ∀ (files : List FileChangeRecord) (pat : String),
      (assemble files pat).totalAdditions
          = ((filterFiles files pat).map fun f => f.additions.getD 0).sum
        ∧ (assemble files pat).totalDeletions
          = ((filterFiles files pat).map fun f => f.deletions.getD 0).sum := by
    intro files pat
    by_cases h : (filterFiles files pat).length = 0
    · rw [List.length_eq_zero] at h
      simp [assemble, h]
    · simp only [assemble, if_neg h]
      exact ⟨by rw [foldl_add_getD, Nat.zero_add],
        by rw [foldl_add_getD, Nat.zero_add]⟩
  refine ⟨main, ?_⟩
  intro f1 f2 f3 ha1 ha2 ha3 hd1 hd2 hd3
  have h := main [f1, f2, f3] ""
  rw [h.1, h.2]
  simp [filterFiles, ha1, ha2, ha3, hd1, hd2, hd3]

/-- Witness for `assemble_totals`: three concrete files (the middle one
skipped as a binary-style `modified` file with no patch) totalling 8
additions and 3 deletions. -/
theorem assemble_totals_witness :
    (assemble
        [⟨"a", none, "modified", some "@@a", some 3, some 1, none, none⟩,
         ⟨"b", none, "modified", none, some 0, some 2, none, none⟩,
         ⟨"c", none, "added", none, some 5, some 0, none, none⟩]
        "").totalAdditions = 8
      ∧ (assemble
        [⟨"a", none, "modified", some "@@a", some 3, some 1, none, none⟩,
         ⟨"b", none, "modified", none, some 0, some 2, none, none⟩,
         ⟨"c", none, "added", none, some 5, some 0, none, none⟩]
        "").totalDeletions = 3 :=
  assemble_totals.2 _ _ _ rfl rfl rfl rfl rfl rfl

/-- C7: the assembler is a total function of its inputs (the embedding
is a Lean function, so no input can raise); an empty filtered set yields
the designated "no matches" result — empty diff text and zero counts —
rather than an error, and the missing optional fields are handled by the
stated defaults: a missing `mode` on an `added` file and a missing
`previousMode` on a `removed` file both fall back to `100644`, and a
missing `patch` simply leaves the section without a body. -/
theorem assemble_empty_and_defaults :
    (∀ (files : List FileChangeRecord) (pat : String),
      filterFiles files pat = [] → assemble files pat = ⟨"", 0, 0, 0⟩)
    ∧ (∀ f : FileChangeRecord, f.status = "added" → f.mode = none →
        f.patch = none →
        fileSection f =
          "diff --git a/" ++ f.filename ++ " b/" ++ f.filename ++ "\n" ++
          "new file mode " ++ "100644" ++ "\n" ++ "--- /dev/null\n" ++
          "+++ b/" ++ f.filename ++ "\n")
    ∧ (∀ f : FileChangeRecord, f.status = "removed" →
        f.previous_mode = none → f.patch = none → f.previous_filename = none →
        fileSection f =
          "diff --git a/" ++ f.filename ++ " b/" ++ f.filename ++ "\n" ++
          "deleted file mode " ++ "100644" ++ "\n" ++
          "--- a/" ++ f.filename ++ "\n" ++ "+++ /dev/null\n") := by
  refine ⟨?_, ?_, ?_⟩
  · intro files pat h
    simp [assemble, h]
  · intro f hs hm hp
    simp only [fileSection, oldFilename, hs, hm, hp]
    rw [if_neg (by simp)]
    rw [if_neg (by decide : ¬("added" : String) = "removed")]
    simp only [eq_self_iff_true, if_true]
    rw [if_neg (by decide : ¬strTruthy none = true)]
    simp only [strOr, string_append_empty, string_append_assoc]
  · intro f hs hm hp hpf
    simp only [fileSection, oldFilename, hs, hm, hp, hpf]
    rw [if_neg (by simp)]
    simp only [eq_self_iff_true, if_true]
    rw [if_neg (by decide : ¬strTruthy none = true)]
    simp only [strOr, string_append_empty, string_append_assoc]

/-- Witness for `assemble_empty_and_defaults`: the empty-filter branch
on a concrete list that the filter `zzz` empties. -/
theorem assemble_empty_and_defaults_witness :
    assemble
        [⟨"a.go", none, "modified", some "@@a", some 1, some 1, none, none⟩]
        "zzz" =
      ⟨"", 0, 0, 0⟩ :=
  assemble_empty_and_defaults.1 _ "zzz" (by decide)

/-! ## State token signer/verifier
(src/gh-dir-diff-oauth/src/index.ts lines 9-44)

`signState` hex-encodes an HMAC-SHA-256 digest of the state under the
secret and returns `state + "." + hex`.  The keyed-hash primitive is the
WebCrypto capability the design treats as a black box (spec section 5);
it is embedded as an explicit parameter `mac secret message` returning
the encoded digest.  JS strings are `List Char` here and `Date.now()` is
the explicit `now : Int` argument of `verifyState`. -/

/-- The whitespace characters `parseInt` skips before parsing. -/
def isJsSpace (c : Char) : Bool :=
  c = ' ' || c = '\t' || c = '\n' || c = '\r'

/-- Value of a digit character in the given base, `none` when `c` is not
a digit of that base. -/
def digitVal (base : Nat) (c : Char) : Option Nat :=
  if '0' ≤ c ∧ c ≤ '9' ∧ c.toNat - 48 < base then some (c.toNat - 48)
  else if base = 16 ∧ 'a' ≤ c ∧ c ≤ 'f' then some (c.toNat - 87)
  else if base = 16 ∧ 'A' ≤ c ∧ c ≤ 'F' then some (c.toNat - 55)
  else none

/-- Accumulate the maximal digit prefix, stopping at the first
non-digit. -/
def parseDigitsAux (base : Nat) : List Char → Nat → Nat
  | [], acc => acc
  | c :: cs, acc =>
      match digitVal base c with
      | some d => parseDigitsAux base cs (acc * base + d)
      | none => acc

/-- The maximal digit prefix of `cs` in the given base, `none` when
there is no leading digit at all. -/
def parseDigits (base : Nat) (cs : List Char) : Option Nat :=
  match cs with
  | [] => none
  | c :: cs' =>
      match digitVal base c with
      | some d => some (parseDigitsAux base cs' d)
      | none => none

/-- JS `parseInt(s)` with no radix argument: skip leading whitespace, an
optional sign, an optional `0x`/`0X` hex prefix, then read the maximal
digit prefix; `none` models `NaN` (no digit found). -/
def jsParseInt (cs : List Char) : Option Int :=
  let cs1 := cs.dropWhile isJsSpace
  let sr : Bool × List Char :=
    match cs1 with
    | '-' :: r => (true, r)
    | '+' :: r => (false, r)
    | _ => (false, cs1)
  let br : Nat × List Char :=
    match sr.2 with
    | '0' :: 'x' :: r => (16, r)
    | '0' :: 'X' :: r => (16, r)
    | _ => (10, sr.2)
  match parseDigits br.1 br.2 with
  | none => none
  | some n => some (if sr.1 then -(n : Int) else (n : Int))

example : jsParseInt "1700000000000".data = some 1700000000000 := by decide
example : jsParseInt "12abc".data = some 12 := by decide
example : jsParseInt "".data = none := by decide
example : jsParseInt "uuid".data = none := by decide
example : jsParseInt "0x1A".data = some 26 := by decide
example : jsParseInt " +42".data = some 42 := by decide

/-- `signState(state, secret)` (index.ts lines 9-23): the signed token
is `state + "." + hex(HMAC-SHA-256(secret, state))`, with the keyed hash
supplied by the `mac` capability. -/
def signState (mac : List Char → List Char → List Char)
    (state secret : List Char) : List Char :=
  state ++ '.' :: mac secret state

/-- `verifyState(signedState, secret)` (index.ts lines 25-44) at
verification time `now`: destructure the first two `.`-separated parts
(`const [state, signature] = signedState.split(".")`), reject falsy
(empty or missing) parts, recompute the signature for the extracted
state and compare, then reject when `now - timestamp > 600000` where
`timestamp` is `parseInt` of the part of the state before the first `-`
(a `NaN` timestamp makes the comparison false, so it never expires). -/
def verifyState (mac : List Char → List Char → List Char)
    (signedState secret : List Char) (now : Int) : Option (List Char) :=
  match splitOnChar '.' signedState with
  | state :: sig :: _ =>
      if state = [] ∨ sig = [] then none
      else
        match splitOnChar '.' (signState mac state secret) with
        | _ :: expectedSig :: _ =>
            if sig ≠ expectedSig then none
            else
              match jsParseInt ((splitOnChar '-' state).headD []) with
              | none => some state
              | some timestamp =>
                  if now - timestamp > 600000 then none else some state
        | _ => none
  | _ => none

example :
    verifyState (fun _ _ => ['a', 'a'])
      (signState (fun _ _ => ['a', 'a']) "1-u".data "k".data) "k".data 1 =
    some "1-u".data := by decide
example :
    verifyState (fun _ _ => ['a', 'a'])
      (signState (fun _ _ => ['a', 'a']) "1-u".data "k".data) "k".data
      700000 = none := by decide

/-! ### Lemmas about `splitOnChar` and `verifyState` -/

/-- `split` never returns an empty array. -/
theorem splitOnChar_ne_nil (sep : Char) (cs : List Char) :
    splitOnChar sep cs ≠ [] := by
  cases cs with
  | nil => simp [splitOnChar]
  | cons c cs =>
    simp only [splitOnChar]
    match h : splitOnChar sep cs with
    | [] => simp
    | h' :: t => by_cases hc : c = sep <;> simp [hc]

/-- One unfolding step of `splitOnChar`. -/
theorem splitOnChar_cons (sep c : Char) (cs : List Char) :
    splitOnChar sep (c :: cs)
      = match splitOnChar sep cs with
        | [] => [[]]
        | h' :: t => if c = sep then [] :: h' :: t else (c :: h') :: t := rfl

/-- One unfolding step of `splitOnChar`, with the tail split given. -/
theorem splitOnChar_cons_eq {sep : Char} {cs h' : List Char}
    {tl : List (List Char)} (c : Char) (hr : splitOnChar sep cs = h' :: tl) :
    splitOnChar sep (c :: cs)
      = if c = sep then [] :: h' :: tl else (c :: h') :: tl := by
  rw [splitOnChar_cons, hr]

/-- Splitting at the first separator occurrence: the separator-free part
before it becomes the first chunk. -/
theorem splitOnChar_append_sep {sep : Char} {pre : List Char}
    (h : sep ∉ pre) (rest : List Char) :
    splitOnChar sep (pre ++ sep :: rest) = pre :: splitOnChar sep rest := by
  induction pre with
  | nil =>
    obtain ⟨h', tl, hr⟩ :=
      List.exists_cons_of_ne_nil (splitOnChar_ne_nil sep rest)
    rw [List.nil_append, splitOnChar_cons_eq sep hr, if_pos rfl, hr]
  | cons c pre ih =>
    have hc : c ≠ sep := fun hc => h (hc ▸ List.mem_cons_self c pre)
    have hpre : sep ∉ pre := fun hm => h (List.mem_cons_of_mem c hm)
    rw [List.cons_append, splitOnChar_cons_eq c (ih hpre), if_neg hc]

/-- No chunk produced by `split` contains the separator. -/
theorem not_mem_of_mem_splitOnChar {sep : Char} {cs t : List Char}
    (ht : t ∈ splitOnChar sep cs) : sep ∉ t := by
  induction cs generalizing t with
  | nil =>
    simp only [splitOnChar, List.mem_singleton] at ht
    subst ht; simp
  | cons c cs ih =>
    obtain ⟨h', tl, hr⟩ :=
      List.exists_cons_of_ne_nil (splitOnChar_ne_nil sep cs)
    rw [splitOnChar_cons_eq c hr] at ht
    by_cases hc : c = sep
    · rw [if_pos hc] at ht
      rcases List.mem_cons.mp ht with rfl | ht'
      · simp
      · exact ih (by rw [hr]; exact ht')
    · rw [if_neg hc] at ht
      rcases List.mem_cons.mp ht with rfl | ht'
      · intro hm
        rcases List.mem_cons.mp hm with rfl | hm'
        · exact hc rfl
        · exact ih (by rw [hr]; exact List.mem_cons_self h' tl) hm'
      · exact ih (by rw [hr]; exact List.mem_cons_of_mem h' ht')

/-- Whatever `verifyState` returns is the first chunk of the split, so
it never contains the `.` delimiter. -/
theorem verifyState_no_dot {mac : List Char → List Char → List Char}
    {ss secret s : List Char} {now : Int}
    (h : verifyState mac ss secret now = some s) : '.' ∉ s := by
  have hmem : s ∈ splitOnChar '.' ss := by
    unfold verifyState at h
    split at h
    case _ state sig rest heq =>
      split at h
      · exact absurd h (by simp)
      · split at h
        case _ esig r heq2 =>
          split at h
          · exact absurd h (by simp)
          · split at h
            · rw [Option.some.injEq] at h
              exact heq ▸ (h ▸ List.mem_cons_self state (sig :: rest))
            · split at h
              · exact absurd h (by simp)
              · rw [Option.some.injEq] at h
                exact heq ▸ (h ▸ List.mem_cons_self state (sig :: rest))
        case _ => exact absurd h (by simp)
    case _ => exact absurd h (by simp)
  exact not_mem_of_mem_splitOnChar hmem

/-- Verifying a freshly signed well-formed token reduces to the expiry
check: with a non-empty dot-free state and a non-empty dot-free digest,
the destructuring and signature comparison both succeed. -/
theorem verify_sign_reduces (mac : List Char → List Char → List Char)
    (st secret : List Char) (hst : st ≠ []) (hdot : '.' ∉ st)
    (hm1 : mac secret st ≠ []) (hm2 : '.' ∉ mac secret st) (now : Int) :
    verifyState mac (signState mac st secret) secret now =
      match jsParseInt ((splitOnChar '-' st).headD []) with
      | none => some st
      | some ts => if now - ts > 600000 then none else some st := by
  have hsplit : splitOnChar '.' (signState mac st secret)
      = [st, mac secret st] := by
    rw [signState, splitOnChar_append_sep hdot, splitOnChar_of_not_mem hm2]
  unfold verifyState
  simp [hsplit, hst, hm1]

/-- C10: the sign/verify round-trip is broken by any `.` in the state:
`verifyState` destructures only the first two `.`-separated parts of the
signed token, so for a state containing `.` it checks the signature of
the proper prefix before the first `.` and can only ever return `none`
or that dot-free prefix — never the original state. -/
theorem verify_sign_dotted_state (mac : List Char → List Char → List Char)
    (st secret : List Char) (now : Int) (hdot : '.' ∈ st) :
    verifyState mac (signState mac st secret) secret now ≠ some st
      ∧ ∀ s, verifyState mac (signState mac st secret) secret now = some s →
          '.' ∉ s :=
  ⟨fun h => verifyState_no_dot h hdot, fun _ h => verifyState_no_dot h⟩

/-- Witness for `verify_sign_dotted_state`: the dotted state `a.b` under
a concrete digest function is never returned by `verifyState`. -/
theorem verify_sign_dotted_state_witness :
    verifyState (fun _ _ => ['f', 'f'])
        (signState (fun _ _ => ['f', 'f']) "a.b".data "k".data) "k".data 0
      ≠ some "a.b".data :=
  (verify_sign_dotted_state (fun _ _ => ['f', 'f']) "a.b".data "k".data 0
    (by decide)).1

/-- C9: when the signature check passes but the state carries no
parseable decimal timestamp before its first `-` (`parseInt` is `NaN`),
the expiry comparison `now - NaN > 600000` is false and `verifyState`
returns the state whatever the verification time is — such tokens never
expire; likewise a timestamp at or after the verification time (a
non-positive age) is accepted as fresh. -/
theorem verify_nan_timestamp_never_expires
    (mac : List Char → List Char → List Char) (st secret : List Char)
    (now : Int) (hst : st ≠ []) (hdot : '.' ∉ st)
    (hm1 : mac secret st ≠ []) (hm2 : '.' ∉ mac secret st) :
    (jsParseInt ((splitOnChar '-' st).headD []) = none →
      verifyState mac (signState mac st secret) secret now = some st)
    ∧ (∀ ts : Int, jsParseInt ((splitOnChar '-' st).headD []) = some ts →
        now ≤ ts →
        verifyState mac (signState mac st secret) secret now = some st) := by
  constructor
  · intro hnan
    rw [verify_sign_reduces mac st secret hst hdot hm1 hm2 now, hnan]
  · intro ts hts hle
    rw [verify_sign_reduces mac st secret hst hdot hm1 hm2 now, hts]
    have hlt : ¬(now - ts > 600000) := by omega
    simp [hlt]

/-- Witness for `verify_nan_timestamp_never_expires`: the state `u` has
no parseable timestamp, and its signed token verifies at an arbitrarily
late time. -/
theorem verify_nan_timestamp_never_expires_witness :
    verifyState (fun _ _ => ['0', 'f'])
        (signState (fun _ _ => ['0', 'f']) "u".data "k".data) "k".data
        999999999999 =
      some "u".data :=
  (verify_nan_timestamp_never_expires (fun _ _ => ['0', 'f']) "u".data
    "k".data 999999999999 (by decide) (by decide) (by decide)
    (by decide)).1 (by decide)

/-- C3 counterexample: the round-trip fails already at a state
containing `.`: for `state = "5.x"` (creation timestamp 5, since
`parseInt("5.x") = 5`), verifying the freshly signed token at the
creation time does not return the original state — `verifyState` splits
the token at every `.` and compares the signature of the prefix `5`
against the chunk `x`, failing.  The split happens before the digest is
ever consulted, so the concrete digest function is immaterial. -/
theorem sign_verify_roundtrip_counterexample :
    verifyState (fun _ _ => ['0', 'f'])
        (signState (fun _ _ => ['0', 'f']) "5.x".data "k".data) "k".data 5
      ≠ some "5.x".data := by
  decide

/-- C3 amended: restricted to non-empty states containing no `.` whose
digests are non-empty and dot-free (as the hex-encoded HMAC output and
the `timestamp-uuid` states produced at `/login` always are):
verify∘sign at `now` equal to the state's parsed creation timestamp
returns the original state; at creation + 11 minutes it returns invalid;
and verifying under a different secret returns invalid provided the two
digests differ (the collision-freeness the design assumes of the MAC). -/
theorem sign_verify_roundtrip_amended
    (mac : List Char → List Char → List Char)
    (st secretA secretB : List Char) (now : Int)
    (hst : st ≠ []) (hdot : '.' ∉ st)
    (hA1 : mac secretA st ≠ []) (hA2 : '.' ∉ mac secretA st)
    (hB2 : '.' ∉ mac secretB st) :
    (∀ ts : Int, jsParseInt ((splitOnChar '-' st).headD []) = some ts →
      verifyState mac (signState mac st secretA) secretA ts = some st)
    ∧ (∀ ts : Int, jsParseInt ((splitOnChar '-' st).headD []) = some ts →
        verifyState mac (signState mac st secretA) secretA (ts + 660000)
          = none)
    ∧ (mac secretA st ≠ mac secretB st →
        verifyState mac (signState mac st secretA) secretB now = none) := by
  refine ⟨?_, ?_, ?_⟩
  · intro ts hts
    rw [verify_sign_reduces mac st secretA hst hdot hA1 hA2 ts, hts]
    have hlt : ¬(ts - ts > 600000) := by omega
    simp [hlt]
  · intro ts hts
    rw [verify_sign_reduces mac st secretA hst hdot hA1 hA2 (ts + 660000),
      hts]
    have hgt : ts + 660000 - ts > 600000 := by omega
    simp [hgt]
  · intro hne
    have hsplitA : splitOnChar '.' (signState mac st secretA)
        = [st, mac secretA st] := by
      rw [signState, splitOnChar_append_sep hdot,
        splitOnChar_of_not_mem hA2]
    have hsplitB : splitOnChar '.' (signState mac st secretB)
        = [st, mac secretB st] := by
      rw [signState, splitOnChar_append_sep hdot,
        splitOnChar_of_not_mem hB2]
    unfold verifyState
    simp [hsplitA, hsplitB, hst, hA1, hne]

/-- Witness for `sign_verify_roundtrip_amended` with the digest function
that returns the secret itself (non-empty, dot-free, and distinguishing
the two secrets), state `100-x` and secrets `aa`, `bb`. -/
theorem sign_verify_roundtrip_amended_witness :
    verifyState (fun secret _ => secret)
        (signState (fun secret _ => secret) "100-x".data "aa".data)
        "aa".data 100 = some "100-x".data
    ∧ verifyState (fun secret _ => secret)
        (signState (fun secret _ => secret) "100-x".data "aa".data)
        "aa".data (100 + 660000) = none
    ∧ verifyState (fun secret _ => secret)
        (signState (fun secret _ => secret) "100-x".data "aa".data)
        "bb".data 0 = none := by
  have h := sign_verify_roundtrip_amended (fun secret _ => secret)
    "100-x".data "aa".data "bb".data 0 (by decide) (by decide) (by decide)
    (by decide) (by decide)
  exact ⟨h.1 100 (by decide), h.2.1 100 (by decide), h.2.2 (by decide)⟩

/-- Model of the engine-level string equality implementing the JS `!==`
comparison at index.ts line 36: compare character by character, stop at
the first mismatch (or at a length mismatch), and report the number of
character comparisons performed. -/
def eqSteps : List Char → List Char → Bool × Nat
  | [], [] => (true, 0)
  | [], _ :: _ => (false, 0)
  | _ :: _, [] => (false, 0)
  | a :: as, b :: bs =>
      if a = b then
        let r := eqSteps as bs
        (r.1, r.2 + 1)
      else (false, 1)

/-- C2: the code's signature comparison is the plain JS `!==` (index.ts
line 36) — despite the `// Constant-time comparison` comment — and the
short-circuit equality it performs agrees with string equality but takes
a number of steps that depends on the position of the first mismatch: on
two 64-character hex digests it stops after 1 comparison when they
differ in the first character and after 64 when they differ only in the
last, so the comparison's running time is not independent of the
mismatch position as the claim requires. -/
theorem signature_comparison_not_constant_time :
    (∀ as bs : List Char, ((eqSteps as bs).1 = true ↔ as = bs))
    ∧ (eqSteps (List.replicate 64 '0')
        ('f' :: List.replicate 63 '0')).2 = 1
    ∧ (eqSteps (List.replicate 64 '0')
        (List.replicate 63 '0' ++ ['f'])).2 = 64 := by
  refine ⟨?_, by decide, by decide⟩
  intro as
  induction as with
  | nil => intro bs; cases bs <;> simp [eqSteps]
  | cons a as ih =>
    intro bs
    cases bs with
    | nil => simp [eqSteps]
    | cons b bs =>
      by_cases h : a = b
      · simp [eqSteps, h, ih]
      · simp [eqSteps, h]

/-- Witness for `signature_comparison_not_constant_time`: the equality
side of the comparison at a concrete pair. -/
theorem signature_comparison_not_constant_time_witness :
    (eqSteps "ab".data "ab".data).1 = true :=
  (signature_comparison_not_constant_time.1 "ab".data "ab".data).mpr rfl

/-! ## Shareable URL (de)serialization
(`updateURL` src/app.js lines 264-277, `loadFromURL` lines 296-371)

The browser pieces the code relies on — `encodeURIComponent`,
`location.pathname` vs `location.search`, and `URLSearchParams.get` —
are modelled faithfully below for the byte-oriented strings involved.
JS strings are `List Char`. -/

/-- The four form fields `updateURL` reads and `loadFromURL`
populates. -/
structure FormState where
  repo : List Char
  base : List Char
  head : List Char
  filter : List Char
deriving DecidableEq, Repr

/-- The characters `encodeURIComponent` leaves unescaped:
`A-Z a-z 0-9 - _ . ! ~ * ' ( )`. -/
def isUnreservedURI (c : Char) : Bool :=
  ('A' ≤ c && c ≤ 'Z') || ('a' ≤ c && c ≤ 'z') || ('0' ≤ c && c ≤ '9') ||
  c = '-' || c = '_' || c = '.' || c = '!' || c = '~' || c = '*' ||
  c.toNat = 39 || c = '(' || c = ')'

/-- Upper-case hex digit of a value below 16. -/
def hexDigitChar (n : Nat) : Char :=
  if n < 10 then Char.ofNat (48 + n) else Char.ofNat (55 + n)

/-- The UTF-8 encoding of one character, as byte values. -/
def utf8Bytes (c : Char) : List Nat :=
  let n := c.toNat
  if n < 128 then [n]
  else if n < 2048 then [192 + n / 64, 128 + n % 64]
  else if n < 65536 then [224 + n / 4096, 128 + n / 64 % 64, 128 + n % 64]
  else [240 + n / 262144, 128 + n / 4096 % 64, 128 + n / 64 % 64,
    128 + n % 64]

/-- Model of JS `encodeURIComponent`: unreserved characters pass
through, everything else is percent-encoded byte by byte. -/
def encodeURIComponent : List Char → List Char
  | [] => []
  | c :: cs =>
      (if isUnreservedURI c then [c]
       else (utf8Bytes c).foldr
         (fun b acc =>
           '%' :: hexDigitChar (b / 16) :: hexDigitChar (b % 16) :: acc)
         [])
        ++ encodeURIComponent cs

example : encodeURIComponent "**/*.ts".data = "**%2F*.ts".data := by decide

/-- `updateURL` (src/app.js lines 264-277): with repo, base and head all
non-empty the shareable URL is `/gh-dir-diff/<repo>/<base>..<head>`,
plus `?filter=<encodeURIComponent(filter)>` when the filter is
non-empty; otherwise no URL is written (`none`). -/
def updateURL (fs : FormState) : Option (List Char) :=
  if fs.repo ≠ [] ∧ fs.base ≠ [] ∧ fs.head ≠ [] then
    some ("/gh-dir-diff/".data ++ fs.repo ++ '/' :: fs.base
      ++ '.' :: '.' :: fs.head
      ++ (if fs.filter ≠ [] then
            '?' :: ("filter=".data ++ encodeURIComponent fs.filter)
          else []))
  else none

example :
    updateURL ⟨"o/r".data, "main".data, "feat/x".data, "**/*.ts".data⟩ =
      some "/gh-dir-diff/o/r/main..feat/x?filter=**%2F*.ts".data := by
  decide

/-- `location.pathname` of a relative URL: everything before the first
`?`. -/
def pathnameOf (url : List Char) : List Char :=
  url.takeWhile fun c => !(c = '?' : Bool)

/-- `location.search` of a relative URL, without its leading `?`:
everything after the first `?`. -/
def queryOf (url : List Char) : List Char :=
  (url.dropWhile fun c => !(c = '?' : Bool)).drop 1

/-- Model of `application/x-www-form-urlencoded` decoding as
`URLSearchParams` applies it to names and values: `+` becomes a space
and valid `%XY` byte escapes are decoded; invalid escapes pass
through. -/
def formDecode : List Char → List Char
  | [] => []
  | '+' :: rest => ' ' :: formDecode rest
  | '%' :: a :: b :: rest =>
      match digitVal 16 a, digitVal 16 b with
      | some ha, some hb => Char.ofNat (16 * ha + hb) :: formDecode rest
      | _, _ => '%' :: formDecode (a :: b :: rest)
  | c :: rest => c :: formDecode rest

example : formDecode "**%2F*.ts".data = "**/*.ts".data := by decide

/-- The name/value pairs of a query string: split on `&`, each pair
split at its first `=` (a pair with no `=` has the empty value). -/
def paramPairs (query : List Char) : List (List Char × List Char) :=
  (splitOnChar '&' query).map fun p =>
    (p.takeWhile fun c => !(c = '=' : Bool),
     (p.dropWhile fun c => !(c = '=' : Bool)).drop 1)

/-- Model of `URLSearchParams.get`: the decoded value of the first pair
whose decoded name equals the key, `none` when there is none. -/
def lookupParam (query key : List Char) : Option (List Char) :=
  match (paramPairs query).find? fun pr => (formDecode pr.1 = key : Bool) with
  | none => none
  | some pr => some (formDecode pr.2)

example :
    lookupParam "filter=**%2F*.ts".data "filter".data =
      some "**/*.ts".data := by decide
example : lookupParam [] "filter".data = none := by decide

/-- JS `split('..')` on the two-character separator: leftmost,
non-overlapping. -/
def splitOnDots : List Char → List (List Char)
  | [] => [[]]
  | '.' :: '.' :: rest => [] :: splitOnDots rest
  | c :: rest =>
      match splitOnDots rest with
      | [] => [[]]
      | h :: t => (c :: h) :: t

example : splitOnDots "o/r/main..feat/x".data
    = ["o/r/main".data, "feat/x".data] := by decide
example : splitOnDots "a...b".data = ["a".data, ".b".data] := by decide

/-- JS `Array.prototype.join(sep)` for string arrays. -/
def joinWith (sep : Char) : List (List Char) → List Char
  | [] => []
  | [x] => x
  | x :: xs => x ++ sep :: joinWith sep xs

/-- `loadFromURL` (src/app.js lines 296-371) reduced to its pure
parsing: given `location.pathname` and the query-parameter lookup,
return the form values it populates (`none` when it populates nothing).
The path branch requires the `/gh-dir-diff/` prefix followed by a
non-empty remainder, strips one trailing `/`, splits on `..` into
exactly two parts, requires at least two `/`-segments before the `..`,
takes the first two as `owner/repo`, rejoins everything after position 2
as the base ref, and reads the filter from the query; on any shape
mismatch it falls back to the legacy `?repo=`-style query parameters. -/
def loadFromURL (pathname : List Char)
    (params : List Char → Option (List Char)) : Option FormState :=
  let fb : Option FormState :=
    match params "repo".data with
    | some r =>
        if r ≠ [] then
          some ⟨r, (params "base".data).getD [],
            (params "head".data).getD [], (params "filter".data).getD []⟩
        else none
    | none => none
  if pathname.take 13 = "/gh-dir-diff/".data ∧ 13 < pathname.length then
    let path0 := pathname.drop 13
    let path := if path0.getLast? = some '/' then path0.dropLast else path0
    let parts := splitOnDots path
    if parts.length = 2 then
      let segs := splitOnChar '/' (parts.headD [])
      if 2 ≤ segs.length then
        some ⟨segs.headD [] ++ '/' :: segs.tail.headD [],
          joinWith '/' (segs.drop 2),
          parts.getD 1 [],
          (params "filter".data).getD []⟩
      else fb
    else fb
  else fb

example :
    loadFromURL (pathnameOf "/gh-dir-diff/o/r/main..feat/x?filter=**%2F*.ts".data)
      (fun k => lookupParam (queryOf "/gh-dir-diff/o/r/main..feat/x?filter=**%2F*.ts".data) k) =
    some ⟨"o/r".data, "main".data, "feat/x".data, "**/*.ts".data⟩ := by
  decide

/-! ### Lemmas about the URL splitting operations -/

/-- `pathname` of a `?`-free URL is the whole URL. -/
theorem pathnameOf_of_not_mem {p : List Char} (hp : '?' ∉ p) :
    pathnameOf p = p := by
  induction p with
  | nil => rfl
  | cons c cs ih =>
    have hc : c ≠ '?' := fun h => hp (h ▸ List.mem_cons_self c cs)
    have hcs : '?' ∉ cs := fun h => hp (List.mem_cons_of_mem c h)
    simp only [pathnameOf, List.takeWhile_cons] at ih ⊢
    rw [if_pos (by simp [hc]), ih hcs]

/-- `search` of a `?`-free URL is empty. -/
theorem queryOf_of_not_mem {p : List Char} (hp : '?' ∉ p) :
    queryOf p = [] := by
  induction p with
  | nil => rfl
  | cons c cs ih =>
    have hc : c ≠ '?' := fun h => hp (h ▸ List.mem_cons_self c cs)
    have hcs : '?' ∉ cs := fun h => hp (List.mem_cons_of_mem c h)
    simp only [queryOf, List.dropWhile_cons] at ih ⊢
    rw [if_pos (by simp [hc])]
    exact ih hcs

/-- `pathname` cuts exactly at the first `?`. -/
theorem pathnameOf_append {p : List Char} (q : List Char) (hp : '?' ∉ p) :
    pathnameOf (p ++ '?' :: q) = p := by
  induction p with
  | nil => simp [pathnameOf, List.takeWhile_cons]
  | cons c cs ih =>
    have hc : c ≠ '?' := fun h => hp (h ▸ List.mem_cons_self c cs)
    have hcs : '?' ∉ cs := fun h => hp (List.mem_cons_of_mem c h)
    simp only [pathnameOf, List.cons_append, List.takeWhile_cons] at ih ⊢
    rw [if_pos (by simp [hc]), ih hcs]

/-- `search` is exactly what follows the first `?`. -/
theorem queryOf_append {p : List Char} (q : List Char) (hp : '?' ∉ p) :
    queryOf (p ++ '?' :: q) = q := by
  induction p with
  | nil => simp [queryOf, List.dropWhile_cons]
  | cons c cs ih =>
    have hc : c ≠ '?' := fun h => hp (h ▸ List.mem_cons_self c cs)
    have hcs : '?' ∉ cs := fun h => hp (List.mem_cons_of_mem c h)
    simp only [queryOf, List.cons_append, List.dropWhile_cons] at ih ⊢
    rw [if_pos (by simp [hc])]
    exact ih hcs

/-- `join` distributes over a first chunk extended on the left. -/
theorem joinWith_cons_head (sep c : Char) (h : List Char)
    (t : List (List Char)) :
    joinWith sep ((c :: h) :: t) = c :: joinWith sep (h :: t) := by
  cases t <;> simp [joinWith]

/-- `split(sep).join(sep)` is the identity. -/
theorem joinWith_splitOnChar (sep : Char) (l : List Char) :
    joinWith sep (splitOnChar sep l) = l := by
  induction l with
  | nil => rfl
  | cons c cs ih =>
    obtain ⟨h', tl, hr⟩ :=
      List.exists_cons_of_ne_nil (splitOnChar_ne_nil sep cs)
    rw [splitOnChar_cons_eq c hr]
    by_cases hc : c = sep
    · subst hc
      rw [if_pos rfl,
        show joinWith c ([] :: h' :: tl) = c :: joinWith c (h' :: tl) by
          simp [joinWith],
        ← hr, ih]
    · rw [if_neg hc, joinWith_cons_head, ← hr, ih]

/-- The path branch of `loadFromURL` on a well-formed serialized
pathname: the first two segments become the repo, the segments after
position 2 are rejoined as the base, and the part after `..` is the
head. -/
theorem loadFromURL_path (owner rname base hd : List Char)
    (params : List Char → Option (List Char))
    (how : '/' ∉ owner) (hrn : '/' ∉ rname) (hhd : hd ≠ [])
    (hlast : hd.getLast? ≠ some '/')
    (hdots : splitOnDots
        (owner ++ '/' :: (rname ++ '/' :: (base ++ '.' :: '.' :: hd)))
      = [owner ++ '/' :: (rname ++ '/' :: base), hd]) :
    loadFromURL
        ("/gh-dir-diff/".data
          ++ (owner ++ '/' :: (rname ++ '/' :: (base ++ '.' :: '.' :: hd))))
        params
      = some ⟨owner ++ '/' :: rname, base, hd,
          (params "filter".data).getD []⟩ := by
  have htake :
      ("/gh-dir-diff/".data
          ++ (owner ++ '/' :: (rname ++ '/' :: (base ++ '.' :: '.' :: hd)))).take 13
        = "/gh-dir-diff/".data :=
    List.take_left' (by decide)
  have hdrop :
      ("/gh-dir-diff/".data
          ++ (owner ++ '/' :: (rname ++ '/' :: (base ++ '.' :: '.' :: hd)))).drop 13
        = owner ++ '/' :: (rname ++ '/' :: (base ++ '.' :: '.' :: hd)) :=
    List.drop_left' (by decide)
  have hlen : 13 <
      ("/gh-dir-diff/".data
          ++ (owner ++ '/' :: (rname ++ '/' :: (base ++ '.' :: '.' :: hd)))).length := by
    rw [List.length_append]
    have : ("/gh-dir-diff/".data).length = 13 := by decide
    simp [this]
  have hN : owner ++ '/' :: (rname ++ '/' :: (base ++ '.' :: '.' :: hd))
      = (owner ++ '/' :: (rname ++ '/' :: (base ++ ['.', '.']))) ++ hd := by
    simp [List.append_assoc]
  have hgl :
      (owner ++ '/' :: (rname ++ '/' :: (base ++ '.' :: '.' :: hd))).getLast?
        = hd.getLast? := by
    rw [hN]
    exact List.getLast?_append_of_ne_nil _ hhd
  have hsegs :
      splitOnChar '/' (owner ++ '/' :: (rname ++ '/' :: base))
        = owner :: rname :: splitOnChar '/' base := by
    rw [splitOnChar_append_sep how, splitOnChar_append_sep hrn]
  simp only [loadFromURL]
  rw [if_pos ⟨htake, hlen⟩, hdrop, hgl, if_neg hlast, hdots]
  rw [if_pos (by simp)]
  simp only [List.headD_cons]
  rw [hsegs]
  rw [if_pos (by simp)]
  simp [joinWith_splitOnChar]

/-- C8: serializing the form `{repo: "o/r", base: "main", head:
"feat/x", filter: "**/*.ts"}` produces the URL
`/gh-dir-diff/o/r/main..feat/x?filter=**%2F*.ts`, and parsing that URL
(pathname plus decoded query parameters) reconstructs the identical form
values; more generally, for a well-formed form — repo `owner/name` with
slash-free components, non-empty base and head, no `?` in any of the
three, head neither ending in `/` nor creating a stray `..` (the
`splitOnDots` hypothesis pins the unique `..` to the separator) — the
round-trip is lossless for owner, repo and head, with the base ref
reconstructed by rejoining all path segments after position 2. -/
theorem url_roundtrip :
    updateURL ⟨"o/r".data, "main".data, "feat/x".data, "**/*.ts".data⟩
        = some "/gh-dir-diff/o/r/main..feat/x?filter=**%2F*.ts".data
    ∧ loadFromURL
        (pathnameOf "/gh-dir-diff/o/r/main..feat/x?filter=**%2F*.ts".data)
        (fun k =>
          lookupParam
            (queryOf "/gh-dir-diff/o/r/main..feat/x?filter=**%2F*.ts".data) k)
        = some ⟨"o/r".data, "main".data, "feat/x".data, "**/*.ts".data⟩
    ∧ (∀ (fs : FormState) (owner rname url : List Char),
        fs.repo = owner ++ '/' :: rname →
        '/' ∉ owner → '/' ∉ rname →
        fs.base ≠ [] → fs.head ≠ [] →
        '?' ∉ fs.repo → '?' ∉ fs.base → '?' ∉ fs.head →
        fs.head.getLast? ≠ some '/' →
        splitOnDots
            (owner ++ '/' :: (rname ++ '/' :: (fs.base ++ '.' :: '.' :: fs.head)))
          = [owner ++ '/' :: (rname ++ '/' :: fs.base), fs.head] →
        updateURL fs = some url →
        ∃ fl, loadFromURL (pathnameOf url)
            (fun k => lookupParam (queryOf url) k)
          = some ⟨fs.repo, fs.base, fs.head, fl⟩) := by
  refine ⟨by decide, by decide, ?_⟩
  intro fs owner rname url hrepo how hrn hbne hhne hqr hqb hqh hlast hdots hurl
  have hrne : fs.repo ≠ [] := by rw [hrepo]; simp
  rw [updateURL, if_pos ⟨hrne, hbne, hhne⟩, Option.some.injEq] at hurl
  have hX : "/gh-dir-diff/".data ++ fs.repo ++ '/' :: fs.base
        ++ '.' :: '.' :: fs.head
      = "/gh-dir-diff/".data
        ++ (owner ++ '/' :: (rname ++ '/' :: (fs.base ++ '.' :: '.' :: fs.head))) := by
    rw [hrepo]; simp [List.append_assoc]
  have hnq : '?' ∉ "/gh-dir-diff/".data
      ++ (owner ++ '/' :: (rname ++ '/' :: (fs.base ++ '.' :: '.' :: fs.head))) := by
    intro hm
    rcases List.mem_append.mp hm with h | h
    · exact absurd h (by decide)
    rcases List.mem_append.mp h with h | h
    · exact hqr (hrepo ▸ List.mem_append_left _ h)
    rcases List.mem_cons.mp h with h | h
    · exact absurd h (by decide)
    rcases List.mem_append.mp h with h | h
    · exact hqr (hrepo ▸ List.mem_append_right _ (List.mem_cons_of_mem _ h))
    rcases List.mem_cons.mp h with h | h
    · exact absurd h (by decide)
    rcases List.mem_append.mp h with h | h
    · exact hqb h
    rcases List.mem_cons.mp h with h | h
    · exact absurd h (by decide)
    rcases List.mem_cons.mp h with h | h
    · exact absurd h (by decide)
    · exact hqh h
  have hnqX : '?' ∉ "/gh-dir-diff/".data ++ fs.repo ++ '/' :: fs.base
      ++ '.' :: '.' :: fs.head := by
    rw [hX]; exact hnq
  refine ⟨(lookupParam (queryOf url) "filter".data).getD [], ?_⟩
  by_cases hf : fs.filter = []
  · rw [if_neg (by simp [hf]), List.append_nil] at hurl
    subst hurl
    rw [pathnameOf_of_not_mem hnqX, queryOf_of_not_mem hnqX, hX, hrepo]
    exact loadFromURL_path owner rname fs.base fs.head _ how hrn hhne
      hlast hdots
  · rw [if_pos hf] at hurl
    subst hurl
    rw [pathnameOf_append _ hnqX, queryOf_append _ hnqX, hX, hrepo]
    exact loadFromURL_path owner rname fs.base fs.head _ how hrn hhne
      hlast hdots

/-- Witness for `url_roundtrip`: the general round-trip instantiated at
the concrete form of the claim. -/
theorem url_roundtrip_witness :
    ∃ fl, loadFromURL
        (pathnameOf "/gh-dir-diff/o/r/main..feat/x?filter=**%2F*.ts".data)
        (fun k =>
          lookupParam
            (queryOf "/gh-dir-diff/o/r/main..feat/x?filter=**%2F*.ts".data) k)
      = some ⟨"o/r".data, "main".data, "feat/x".data, fl⟩ :=
  url_roundtrip.2.2
    ⟨"o/r".data, "main".data, "feat/x".data, "**/*.ts".data⟩
    "o".data "r".data
    "/gh-dir-diff/o/r/main..feat/x?filter=**%2F*.ts".data
    (by decide) (by decide) (by decide) (by decide) (by decide) (by decide)
    (by decide) (by decide) (by decide) (by decide) (by decide)

end GhDirDiff
